import Mathlib

/-!
Shallow embedding of the algorithmic core of the `ml-prep` repository:

* the contrastive-decoding token-selection loop, with and without the
  adaptive-plausibility constraint (notebook `src/unnamed/part_000`);
* the hand-rolled multi-head attention module
  (`MultiHeadAttention` in `src/ml/autoregressive_models.ipynb`).

Conventions of the embedding:

* Vocabulary-sized tensors become `List ℚ`; a logit vector that may hold
  `-inf` entries becomes `List (WithBot ℚ)` with `⊥` standing for `-inf`.
* The transcendental functions `exp` (inside `softmax`) and `log` are
  abstract parameters `e l : ℚ → ℚ`: every property claimed of the code is
  structural and holds for an arbitrary choice of those functions, except
  where positivity of `exp` is explicitly assumed.  `F.softmax` is embedded
  by its mathematical definition `softmax(x)_i = exp x_i / Σ_j exp x_j`,
  extended with `exp (-inf) = 0` exactly as torch computes it.
* The two language models are abstract scorers `List ℕ → List ℚ` mapping
  the current token sequence to a logit vector, as the spec's Scorer
  capability describes; `torch.multinomial` is nondeterministic, so the
  decoding loop is an inductive relation whose sampling step may choose any
  candidate index carrying strictly positive sampling weight.
-/

namespace MLPrep

/-! ### Basic numeric helpers -/

/-- `exp` extended to `(-∞, +∞]`-valued scores: `exp (-inf) = 0`,
mirroring how `torch.softmax` treats `-inf` entries. -/
def expW (e : ℚ → ℚ) : WithBot ℚ → ℚ :=
  fun x => WithBot.recBotCoe 0 e x

/-- `F.softmax` on a plain vector: `softmax(x)_i = e x_i / Σ_j e x_j`. -/
def softmaxQ (e : ℚ → ℚ) (l : List ℚ) : List ℚ :=
  l.map (fun x => e x / (l.map e).sum)

/-- `F.softmax` on a vector that may hold `-inf` entries. -/
def softmaxW (e : ℚ → ℚ) (l : List (WithBot ℚ)) : List ℚ :=
  l.map (fun v => expW e v / (l.map (expW e)).sum)

/-- The maximum entry of a vector (`torch.max`); the default `0` is only
taken on the empty vector, on which `torch.max` is undefined. -/
def listMax (l : List ℚ) : ℚ :=
  l.maximum.unbot' 0

/-! ### `torch.topk`

`torch.topk(t, k)` returns the `k` largest entries of `t` together with
their indices.  We embed it by repeated selection of a best remaining
index (ties resolved towards the smaller index, as on the CPU backend):
`bestIdx` scans a candidate index list for the index holding the largest
value, and `topkIdx` picks `k` such indices without repetition. -/

/-- Index of the largest value among `c0 :: cands`, reading values out of
`s` (out-of-range indices read as `d`); first occurrence wins ties. -/
def bestIdx {α : Type} [LinearOrder α] (s : List α) (d : α) (c0 : ℕ)
    (cands : List ℕ) : ℕ :=
  cands.foldl (fun b i => if s.getD b d < s.getD i d then i else b) c0

/-- Indices of the `k` largest entries of `s` among the candidate indices
`cands`, best first. -/
def topkIdx {α : Type} [LinearOrder α] (s : List α) (d : α) :
    ℕ → List ℕ → List ℕ
  | 0, _ => []
  | _ + 1, [] => []
  | k + 1, c :: cs =>
      let b := bestIdx s d c cs
      b :: topkIdx s d k ((c :: cs).erase b)

/-! ### Contrastive decoding, `src/unnamed/part_000`

The adaptive cell reads:
```
def calculate_vhead(expert_probs, alpha):
  mask = expert_probs >= (alpha * torch.max(expert_probs))
  return mask
```
and inside `generate_next_token`:
```
plausible_mask = calculate_vhead(expert_probs, alpha)
contrastive_logits = torch.log(expert_probs)
amateur_penalty = torch.log(amateur_probs)
contrastive_logits[plausible_mask] -= amateur_penalty[plausible_mask]
contrastive_logits[~plausible_mask] = float('-inf')
```
-/

/-- `calculate_vhead` of the source: the plausibility mask
`expert_probs >= alpha * torch.max(expert_probs)`. -/
def calculate_vhead (expert_probs : List ℚ) (alpha : ℚ) : List Bool :=
  expert_probs.map (fun p => decide (alpha * listMax expert_probs ≤ p))

/-- The adaptive contrastive score vector, following the source
operation by operation: start from `log expert_probs`, subtract
`log amateur_probs` at mask-true entries in place, then overwrite
mask-false entries with `-inf`. -/
def cdScoresAdaptive (l : ℚ → ℚ) (expert_probs amateur_probs : List ℚ)
    (alpha : ℚ) : List (WithBot ℚ) :=
  let vhead_mask := calculate_vhead expert_probs alpha
  let contrastive_logits := expert_probs.map l
  let amateur_penalty := amateur_probs.map l
  let subtracted := List.zipWith
    (fun (m : Bool) (cp : ℚ × ℚ) => if m then cp.1 - cp.2 else cp.1)
    vhead_mask (contrastive_logits.zip amateur_penalty)
  List.zipWith (fun (m : Bool) (c : ℚ) => if m then (c : WithBot ℚ) else ⊥)
    vhead_mask subtracted

/-- The non-adaptive contrastive score vector
(`contrastive_logits = torch.log(expert_probs) - torch.log(amateur_probs)`
in the first `generate_next_token` cell). -/
def cdScores (l : ℚ → ℚ) (expert_probs amateur_probs : List ℚ) : List ℚ :=
  List.zipWith (fun a b => a - b) (expert_probs.map l) (amateur_probs.map l)

/-! ### The decoding loop (`generate_next_token`)

Both `generate_next_token` cells loop `for _ in range(num_tokens)`, and
per iteration: query the two scorers on the current sequence, softmax
both logit vectors, form the contrastive score vector, take
`torch.topk(contrastive_logits, k=50)`, softmax the top-k scores, draw a
pool position with `torch.multinomial`, and append
`topk_indices[sampled_index]` to `generated_tokens`.  The environment
(two scorers, `exp` inside softmax, `log`, `alpha`) is a `CDParams`
record; `torch.multinomial` may return any pool position of strictly
positive weight, so a run of the loop is a derivation of the inductive
relation `GenRel` (adaptive cell) or `GenRelNA` (non-adaptive cell). -/

/-- Environment of `generate_next_token`: the two abstract scorers, the
abstract transcendental functions, and the plausibility parameter
`alpha` (source default `0.1`). -/
structure CDParams where
  expertLogits : List ℕ → List ℚ
  amateurLogits : List ℕ → List ℚ
  e : ℚ → ℚ
  l : ℚ → ℚ
  alpha : ℚ

/-- Expert probabilities of one adaptive step:
`expert_probs = F.softmax(expert_logits, dim=-1)`. -/
def stepExpertProbs (P : CDParams) (S : List ℕ) : List ℚ :=
  softmaxQ P.e (P.expertLogits S)

/-- The contrastive score vector of one adaptive step. -/
def stepScores (P : CDParams) (S : List ℕ) : List (WithBot ℚ) :=
  cdScoresAdaptive P.l (stepExpertProbs P S) (softmaxQ P.e (P.amateurLogits S))
    P.alpha

/-- `topk_indices` of one adaptive step: `torch.topk(contrastive_logits,
k=50, dim=-1)` (the well-defined case is `50 ≤ ` vocabulary size; the
GPT-2 vocabulary of the source has size 50257). -/
def stepPool (P : CDParams) (S : List ℕ) : List ℕ :=
  topkIdx (stepScores P S) ⊥ 50 (List.range (stepScores P S).length)

/-- `topk_probs = F.softmax(topk_logits, dim=-1)` of one adaptive step. -/
def stepWeights (P : CDParams) (S : List ℕ) : List ℚ :=
  softmaxW P.e ((stepPool P S).map (fun i => (stepScores P S).getD i ⊥))

/-- `next_token = topk_indices[sampled_index]` of one adaptive step,
given the pool position `c` drawn by `torch.multinomial`. -/
def stepToken (P : CDParams) (S : List ℕ) (c : ℕ) : ℕ :=
  (stepPool P S).getD c 0

/-- One run of the adaptive `generate_next_token` loop:
`GenRel P S n T` holds when starting from token sequence `S` and
performing `n` iterations can produce the sequence `T`.  The sampling
step may pick any pool position whose multinomial weight is strictly
positive. -/
inductive GenRel (P : CDParams) : List ℕ → ℕ → List ℕ → Prop
  | done (S : List ℕ) : GenRel P S 0 S
  | step (S : List ℕ) (n c : ℕ) (T : List ℕ)
      (hc : 0 < (stepWeights P S).getD c 0)
      (htail : GenRel P (S ++ [stepToken P S c]) n T) :
      GenRel P S (n + 1) T

/-- The contrastive score vector of one non-adaptive step, injected into
`(-∞, +∞]` so that `torch.topk` can be shared with the adaptive path
(the non-adaptive vector holds no `-inf` entry). -/
def stepScoresNA (P : CDParams) (S : List ℕ) : List (WithBot ℚ) :=
  (cdScores P.l (softmaxQ P.e (P.expertLogits S))
    (softmaxQ P.e (P.amateurLogits S))).map (fun (q : ℚ) => (q : WithBot ℚ))

/-- `topk_indices` of one non-adaptive step. -/
def stepPoolNA (P : CDParams) (S : List ℕ) : List ℕ :=
  topkIdx (stepScoresNA P S) ⊥ 50 (List.range (stepScoresNA P S).length)

/-- `topk_probs` of one non-adaptive step. -/
def stepWeightsNA (P : CDParams) (S : List ℕ) : List ℚ :=
  softmaxW P.e ((stepPoolNA P S).map (fun i => (stepScoresNA P S).getD i ⊥))

/-- `next_token` of one non-adaptive step. -/
def stepTokenNA (P : CDParams) (S : List ℕ) (c : ℕ) : ℕ :=
  (stepPoolNA P S).getD c 0

/-- One run of the non-adaptive `generate_next_token` loop. -/
inductive GenRelNA (P : CDParams) : List ℕ → ℕ → List ℕ → Prop
  | done (S : List ℕ) : GenRelNA P S 0 S
  | step (S : List ℕ) (n c : ℕ) (T : List ℕ)
      (hc : 0 < (stepWeightsNA P S).getD c 0)
      (htail : GenRelNA P (S ++ [stepTokenNA P S c]) n T) :
      GenRelNA P S (n + 1) T

/-! ### Multi-head attention, `src/ml/autoregressive_models.ipynb`

```
class MultiHeadAttention(nn.Module):
  def __init__(self, hidden_size, num_heads):
    super().__init__()
    assert hidden_size%num_heads==0
    ...
    self.query=nn.Linear(in_features = hidden_size, out_features = hidden_size)
    self.key=nn.Linear(in_features = hidden_size, out_features = hidden_size)
    self.value=nn.Linear(in_feautures = hidden_size, out_features = hidden_size)
    self.fc_out = nn.Linear(hidden_size, hidden_size)
    self.scale = torch.sqrt(torch.tensor(self.head_dim, dtype=torch.float32))

  def forward(self, query, key, value, mask = None):
    Q=self.query(query)
    K=self.query(key)
    V=self.query(value)
    ...split into heads...
    scores = torch.matmul(Q, K.transpose(-2, -1)) / self.scale
    if mask is not None:
      scores = scores.masked_fill(mask == False, float('-inf'))
    attn_weights=F.softmax(scores, dim=-1)
    attn_output=torch.matmul(attn_weights, V)
    ...concatenate heads...
    output=self.fc_out(attn_output)
    return output
```

A sequence tensor `(seq_len, hidden_size)` (one batch entry; batch
entries are processed independently) is embedded as `Fin n → List ℚ`.
The irrational `scale = sqrt(head_dim)` is an abstract parameter. -/

/-- `nn.Linear`: a weight matrix (list of rows) and a bias vector. -/
structure Linear where
  weight : List (List ℚ)
  bias : List ℚ

/-- Dot product of two vectors. -/
def dotQ (u v : List ℚ) : ℚ :=
  (List.zipWith (fun a b => a * b) u v).sum

/-- Applying an `nn.Linear` layer to one position vector: `W x + b`. -/
def Linear.apply (L : Linear) (x : List ℚ) : List ℚ :=
  List.zipWith (fun row b => dotQ row x + b) L.weight L.bias

/-- The four learned layers held by a constructed `MultiHeadAttention`
module (`self.query`, `self.key`, `self.value`, `self.fc_out`). -/
structure MHAWeights where
  query : Linear
  key : Linear
  value : Linear
  fc_out : Linear

/-- Head `h` of a position vector after the `view`/`transpose` head
split: components `h*headDim` to `h*headDim + headDim - 1`. -/
def headSlice (headDim h : ℕ) (v : List ℚ) : List ℚ :=
  (v.drop (h * headDim)).take headDim

/-- The pre-mask attention score of head `h` between query position `i`
and key position `j`: `scores = matmul(Q, K^T) / self.scale`.  As in the
source, `Q = self.query(query)` and `K = self.query(key)`: the `forward`
method applies `self.query` to all three inputs. -/
def mhaScore (W : MHAWeights) (headDim : ℕ) (scale : ℚ)
    {qn kn : ℕ} (query : Fin qn → List ℚ) (key : Fin kn → List ℚ)
    (h : ℕ) (i : Fin qn) (j : Fin kn) : ℚ :=
  dotQ (headSlice headDim h (W.query.apply (query i)))
    (headSlice headDim h (W.query.apply (key j))) / scale

/-- Attention scores after `masked_fill(mask == False, -inf)`; with
`mask = None` (the default) the raw scores are kept. -/
def mhaMasked (W : MHAWeights) (headDim : ℕ) (scale : ℚ)
    {qn kn : ℕ} (query : Fin qn → List ℚ) (key : Fin kn → List ℚ)
    (mask : Option (Fin qn → Fin kn → Bool))
    (h : ℕ) (i : Fin qn) (j : Fin kn) : WithBot ℚ :=
  match mask with
  | none => (mhaScore W headDim scale query key h i j : WithBot ℚ)
  | some m =>
      if m i j then (mhaScore W headDim scale query key h i j : WithBot ℚ)
      else ⊥

/-- `attn_weights = F.softmax(scores, dim=-1)`: softmax over the key
dimension of the masked scores. -/
def mhaWeight (W : MHAWeights) (headDim : ℕ) (scale : ℚ) (e : ℚ → ℚ)
    {qn kn : ℕ} (query : Fin qn → List ℚ) (key : Fin kn → List ℚ)
    (mask : Option (Fin qn → Fin kn → Bool))
    (h : ℕ) (i : Fin qn) (j : Fin kn) : ℚ :=
  expW e (mhaMasked W headDim scale query key mask h i j) /
    ∑ j' : Fin kn, expW e (mhaMasked W headDim scale query key mask h i j')

/-- `attn_output = matmul(attn_weights, V)` for head `h`, query position
`i`: the weighted sum over key positions of head `h` of
`V = self.query(value)` (the source applies `self.query` here too). -/
def mhaHeadOut (W : MHAWeights) (headDim : ℕ) (scale : ℚ) (e : ℚ → ℚ)
    {qn kn : ℕ} (query : Fin qn → List ℚ) (key value : Fin kn → List ℚ)
    (mask : Option (Fin qn → Fin kn → Bool))
    (h : ℕ) (i : Fin qn) : List ℚ :=
  (List.range headDim).map (fun c =>
    ∑ j : Fin kn, mhaWeight W headDim scale e query key mask h i j *
      (headSlice headDim h (W.query.apply (value j))).getD c 0)

/-- `MultiHeadAttention.forward` at query position `i`: concatenate the
per-head outputs back into a `hidden_size` vector and apply
`self.fc_out`. -/
def MHAForward (W : MHAWeights) (numHeads headDim : ℕ) (scale : ℚ)
    (e : ℚ → ℚ) {qn kn : ℕ} (query : Fin qn → List ℚ)
    (key value : Fin kn → List ℚ)
    (mask : Option (Fin qn → Fin kn → Bool)) (i : Fin qn) : List ℚ :=
  W.fc_out.apply
    (((List.range numHeads).map
      (fun h => mhaHeadOut W headDim scale e query key value mask h i)).flatten)

/-- The lower-triangular causal self-attention mask
(`torch.tril(torch.ones(L, L)).bool()`): query position `i` may attend
to key positions `j ≤ i`. -/
def causalMask {n : ℕ} : Fin n → Fin n → Bool :=
  fun i j => decide ((j : ℕ) ≤ (i : ℕ))

/-- Outcome of running `MultiHeadAttention.__init__`. -/
inductive MHAInitError : Type
  | zeroDivisionError : MHAInitError
  | assertionError : MHAInitError
  | typeError : MHAInitError
deriving DecidableEq

/-- `MultiHeadAttention.__init__(hidden_size, num_heads)`.  Evaluating
`hidden_size % num_heads` with `num_heads = 0` raises `ZeroDivisionError`;
a non-zero remainder fails the `assert`; otherwise construction reaches
`self.value = nn.Linear(in_feautures = hidden_size, ...)`, whose
misspelled keyword argument makes `nn.Linear.__init__` raise `TypeError`.
No branch completes the constructor. -/
def MultiHeadAttention.init (hidden_size num_heads : ℕ) :
    Except MHAInitError Unit :=
  if num_heads = 0 then .error .zeroDivisionError
  else if hidden_size % num_heads = 0 then .error .typeError
  else .error .assertionError

/-! ## Helper lemmas -/

theorem getD_zipWith {α β γ : Type} (f : α → β → γ) (l1 : List α)
    (l2 : List β) (i : ℕ) (d1 : α) (d2 : β) (d3 : γ)
    (h1 : i < l1.length) (h2 : i < l2.length) :
    (List.zipWith f l1 l2).getD i d3 = f (l1.getD i d1) (l2.getD i d2) := by
  rw [List.getD_eq_getElem?_getD, List.getElem?_zipWith,
    List.getElem?_eq_getElem h1, List.getElem?_eq_getElem h2,
    List.getD_eq_getElem _ _ h1, List.getD_eq_getElem _ _ h2]
  rfl

theorem getD_map {α β : Type} (f : α → β) (l : List α) (i : ℕ)
    (d1 : α) (d2 : β) (h : i < l.length) :
    (l.map f).getD i d2 = f (l.getD i d1) := by
  rw [List.getD_eq_getElem?_getD, List.getElem?_map,
    List.getElem?_eq_getElem h, List.getD_eq_getElem _ _ h]
  rfl

theorem getD_mem {α : Type} (l : List α) (i : ℕ) (d : α)
    (h : i < l.length) : l.getD i d ∈ l := by
  rw [List.getD_eq_getElem _ _ h]
  exact List.getElem_mem h

/-- The maximum of a non-empty list is one of its entries. -/
theorem listMax_mem {l : List ℚ} (h : l ≠ []) : listMax l ∈ l := by
  rcases hm : l.maximum with _ | m
  · exact absurd (List.maximum_eq_bot.mp hm) h
  · have h1 : listMax l = m := by unfold listMax; rw [hm]; rfl
    rw [h1]
    exact List.maximum_mem hm

/-- Every entry of a list is at most its maximum. -/
theorem le_listMax {l : List ℚ} {a : ℚ} (h : a ∈ l) : a ≤ listMax l := by
  have h1 := List.le_maximum_of_mem' h
  rcases hm : l.maximum with _ | m
  · rw [hm] at h1; exact absurd h1 (by simp)
  · rw [hm] at h1
    have h2 : listMax l = m := by unfold listMax; rw [hm]; rfl
    rw [h2]
    exact WithBot.coe_le_coe.mp h1

/-- Length of the adaptive score vector. -/
theorem cdScoresAdaptive_length (l : ℚ → ℚ) (eP aP : List ℚ) (alpha : ℚ) :
    (cdScoresAdaptive l eP aP alpha).length = min eP.length aP.length := by
  simp [cdScoresAdaptive, calculate_vhead, List.length_zipWith]

/-- Pointwise description of the adaptive score vector. -/
theorem cdScoresAdaptive_getD (l : ℚ → ℚ) (eP aP : List ℚ) (alpha : ℚ)
    (i : ℕ) (hi : i < eP.length) (hia : i < aP.length) :
    (cdScoresAdaptive l eP aP alpha).getD i ⊥ =
      if alpha * listMax eP ≤ eP.getD i 0 then
        ((l (eP.getD i 0) - l (aP.getD i 0) : ℚ) : WithBot ℚ)
      else ⊥ := by
  unfold cdScoresAdaptive
  have hmask : i < (calculate_vhead eP alpha).length := by
    simpa [calculate_vhead] using hi
  have hc : i < (eP.map l).length := by simpa using hi
  have ha : i < (aP.map l).length := by simpa using hia
  have hzip : i < ((eP.map l).zip (aP.map l)).length := by
    simp [List.length_zip]; omega
  have hsub : i < (List.zipWith
      (fun (m : Bool) (cp : ℚ × ℚ) => if m then cp.1 - cp.2 else cp.1)
      (calculate_vhead eP alpha) ((eP.map l).zip (aP.map l))).length := by
    simp [List.length_zipWith]; omega
  rw [getD_zipWith _ _ _ _ false 0 _ hmask hsub,
    getD_zipWith _ _ _ _ false (0, 0) _ hmask hzip]
  have hz : ((eP.map l).zip (aP.map l)).getD i (0, 0) =
      (l (eP.getD i 0), l (aP.getD i 0)) := by
    rw [List.zip_eq_zipWith, getD_zipWith _ _ _ _ 0 0 _ hc ha,
      getD_map _ _ _ 0 _ hi, getD_map _ _ _ 0 _ hia]
  have hm : (calculate_vhead eP alpha).getD i false =
      decide (alpha * listMax eP ≤ eP.getD i 0) := by
    unfold calculate_vhead
    rw [getD_map _ _ _ 0 _ hi]
  rw [hz, hm]
  simp only [List.getD_eq_getElem?_getD]
  by_cases hle : alpha * listMax eP ≤ eP[i]?.getD 0 <;> simp [hle]

/-! ## Claims -/

/-- C2.  For every expert distribution, amateur distribution and `alpha`,
the adaptive contrastive score vector computed by the source
(`calculate_vhead` plus the masked in-place update in
`generate_next_token`) satisfies: it has one entry per vocabulary index,
`score[i] = log expert_probs[i] - log amateur_probs[i]` at every index
with `expert_probs[i] ≥ alpha * max expert_probs`, and `score[i] = -inf`
at every other index. -/
theorem claim_C2 (l : ℚ → ℚ) (eP aP : List ℚ) (alpha : ℚ)
    (hlen : aP.length = eP.length) (i : ℕ) (hi : i < eP.length) :
    (cdScoresAdaptive l eP aP alpha).length = eP.length ∧
    (cdScoresAdaptive l eP aP alpha).getD i ⊥ =
      (if alpha * listMax eP ≤ eP.getD i 0 then
        ((l (eP.getD i 0) - l (aP.getD i 0) : ℚ) : WithBot ℚ)
      else ⊥) := by
  constructor
  · rw [cdScoresAdaptive_length, hlen, min_self]
  · exact cdScoresAdaptive_getD l eP aP alpha i hi (hlen ▸ hi)

theorem claim_C2_wit :
    ([(1:ℚ)/10, 4/10, 4/10, 1/10].length = [(7:ℚ)/10, 2/10, 1/20, 1/20].length) ∧
    (1 : ℕ) < [(7:ℚ)/10, 2/10, 1/20, 1/20].length ∧
    ((cdScoresAdaptive id [(7:ℚ)/10, 2/10, 1/20, 1/20]
        [(1:ℚ)/10, 4/10, 4/10, 1/10] (3/10)).length =
      [(7:ℚ)/10, 2/10, 1/20, 1/20].length ∧
    (cdScoresAdaptive id [(7:ℚ)/10, 2/10, 1/20, 1/20]
        [(1:ℚ)/10, 4/10, 4/10, 1/10] (3/10)).getD 1 ⊥ =
      (if (3:ℚ)/10 * listMax [(7:ℚ)/10, 2/10, 1/20, 1/20] ≤
          [(7:ℚ)/10, 2/10, 1/20, 1/20].getD 1 0 then
        ((id ([(7:ℚ)/10, 2/10, 1/20, 1/20].getD 1 0) -
          id ([(1:ℚ)/10, 4/10, 4/10, 1/10].getD 1 0) : ℚ) : WithBot ℚ)
      else ⊥)) :=
  ⟨rfl, by decide,
    claim_C2 id [(7:ℚ)/10, 2/10, 1/20, 1/20] [(1:ℚ)/10, 4/10, 4/10, 1/10]
      (3/10) rfl 1 (by decide)⟩

/-- C5.  With `alpha = 0` the adaptive score vector equals the
non-adaptive score vector (first `generate_next_token` cell) elementwise:
every entry is `log expert_probs[i] - log amateur_probs[i]` and no entry
is excluded (`-inf`). -/
theorem claim_C5 (l : ℚ → ℚ) (eP aP : List ℚ) (hpos : ∀ p ∈ eP, 0 ≤ p) :
    cdScoresAdaptive l eP aP 0 =
      (cdScores l eP aP).map (fun (q : ℚ) => (q : WithBot ℚ)) := by
  apply List.ext_getElem?
  intro i
  by_cases hi : i < min eP.length aP.length
  · have h1 : i < (cdScoresAdaptive l eP aP 0).length := by
      rw [cdScoresAdaptive_length]; exact hi
    have hie : i < eP.length := lt_of_lt_of_le hi (min_le_left _ _)
    have hia : i < aP.length := lt_of_lt_of_le hi (min_le_right _ _)
    have h2 : i < ((cdScores l eP aP).map
        (fun (q : ℚ) => (q : WithBot ℚ))).length := by
      simp [cdScores, List.length_zipWith]
      omega
    rw [List.getElem?_eq_getElem h1, List.getElem?_eq_getElem h2]
    have hL : (cdScoresAdaptive l eP aP 0)[i] =
        (cdScoresAdaptive l eP aP 0).getD i ⊥ :=
      (List.getD_eq_getElem _ _ h1).symm
    have hR : ((cdScores l eP aP).map (fun (q : ℚ) => (q : WithBot ℚ)))[i] =
        ((cdScores l eP aP).map (fun (q : ℚ) => (q : WithBot ℚ))).getD i ⊥ :=
      (List.getD_eq_getElem _ _ h2).symm
    rw [hL, hR, cdScoresAdaptive_getD l eP aP 0 i hie hia]
    have hc : i < (cdScores l eP aP).length := by
      simp [cdScores, List.length_zipWith]; omega
    have hcm : i < (eP.map l).length := by simpa using hie
    have ham : i < (aP.map l).length := by simpa using hia
    rw [getD_map _ _ _ 0 _ hc]
    unfold cdScores
    rw [getD_zipWith _ _ _ _ 0 0 _ hcm ham, getD_map _ _ _ 0 _ hie,
      getD_map _ _ _ 0 _ hia]
    have h0 : (0 : ℚ) * listMax eP ≤ eP.getD i 0 := by
      rw [zero_mul]
      exact hpos _ (getD_mem eP i 0 hie)
    have h0' : (0 : ℚ) ≤ eP[i]?.getD 0 := by
      rw [← List.getD_eq_getElem?_getD]
      exact hpos _ (getD_mem eP i 0 hie)
    simp [h0, h0']
  · have h1 : ¬ i < (cdScoresAdaptive l eP aP 0).length := by
      rw [cdScoresAdaptive_length]; exact hi
    have h2 : ¬ i < ((cdScores l eP aP).map
        (fun (q : ℚ) => (q : WithBot ℚ))).length := by
      simp only [List.length_map, cdScores, List.length_zipWith,
        List.length_map]
      simpa using hi
    rw [List.getElem?_eq_none (le_of_not_lt h1),
      List.getElem?_eq_none (le_of_not_lt h2)]

theorem claim_C5_wit :
    (∀ p ∈ [(7:ℚ)/10, 2/10, 1/10], 0 ≤ p) ∧
    cdScoresAdaptive id [(7:ℚ)/10, 2/10, 1/10] [(1:ℚ)/2, 1/4, 1/4] 0 =
      (cdScores id [(7:ℚ)/10, 2/10, 1/10] [(1:ℚ)/2, 1/4, 1/4]).map
        (fun (q : ℚ) => (q : WithBot ℚ)) :=
  ⟨by norm_num,
    claim_C5 id [(7:ℚ)/10, 2/10, 1/10] [(1:ℚ)/2, 1/4, 1/4] (by norm_num)⟩

/-- C6.  For every probability distribution and every `alpha ≤ 1`, each
index attaining the maximum expert probability satisfies the
plausibility mask computed by `calculate_vhead`; hence the mask always
has at least one `true` entry (the surviving candidate set is never
empty). -/
theorem claim_C6 (eP : List ℚ) (alpha : ℚ) (hne : eP ≠ [])
    (hA : alpha ≤ 1) (hpos : ∀ p ∈ eP, 0 ≤ p) :
    (∀ i, i < eP.length → eP.getD i 0 = listMax eP →
      (calculate_vhead eP alpha).getD i false = true) ∧
    true ∈ calculate_vhead eP alpha := by
  have hmax0 : 0 ≤ listMax eP := hpos _ (listMax_mem hne)
  have hstep : alpha * listMax eP ≤ listMax eP := by
    calc alpha * listMax eP ≤ 1 * listMax eP :=
          mul_le_mul_of_nonneg_right hA hmax0
      _ = listMax eP := one_mul _
  constructor
  · intro i hi hmax
    unfold calculate_vhead
    rw [getD_map _ _ _ 0 _ hi, hmax]
    exact decide_eq_true hstep
  · unfold calculate_vhead
    rw [List.mem_map]
    exact ⟨listMax eP, listMax_mem hne, decide_eq_true hstep⟩

theorem claim_C6_wit :
    ([(7:ℚ)/10, 2/10, 1/10] ≠ []) ∧ ((3:ℚ)/10 ≤ 1) ∧
    (∀ p ∈ [(7:ℚ)/10, 2/10, 1/10], 0 ≤ p) ∧
    ((∀ i, i < [(7:ℚ)/10, 2/10, 1/10].length →
      [(7:ℚ)/10, 2/10, 1/10].getD i 0 = listMax [(7:ℚ)/10, 2/10, 1/10] →
      (calculate_vhead [(7:ℚ)/10, 2/10, 1/10] (3/10)).getD i false = true) ∧
    true ∈ calculate_vhead [(7:ℚ)/10, 2/10, 1/10] (3/10)) :=
  ⟨by simp, by norm_num, by norm_num,
    claim_C6 [(7:ℚ)/10, 2/10, 1/10] (3/10) (by simp) (by norm_num)
      (by norm_num)⟩

/-- C9.  Constructing `MultiHeadAttention` with `hidden_size = 10` and
`num_heads = 3` fails at construction time with a configuration error
(the `assert hidden_size % num_heads == 0` fires): the invalid
configuration is never silently coerced into an instance. -/
theorem claim_C9 :
    MultiHeadAttention.init 10 3 = Except.error MHAInitError.assertionError :=
  rfl

/-- C10.  For every `hidden_size` and `num_heads` — including every
valid configuration with `hidden_size` divisible by `num_heads` —
`MultiHeadAttention.__init__` raises: the value projection is built with
the misspelled keyword `in_feautures`, so `nn.Linear` raises `TypeError`
on the path that survives the divisibility assert, and no
`MultiHeadAttention` instance is ever constructed. -/
theorem claim_C10 (hidden_size num_heads : ℕ) :
    ∃ err : MHAInitError,
      MultiHeadAttention.init hidden_size num_heads = Except.error err := by
  unfold MultiHeadAttention.init
  by_cases h0 : num_heads = 0
  · exact ⟨MHAInitError.zeroDivisionError, by simp [h0]⟩
  · by_cases hd : hidden_size % num_heads = 0
    · exact ⟨MHAInitError.typeError, by simp [h0, hd]⟩
    · exact ⟨MHAInitError.assertionError, by simp [h0, hd]⟩

/-- C1 (refuted by the code, see `claim_C1`'s status).  The source's
`MultiHeadAttention.forward` projects query, key and value with
`self.query` alone (`Q=self.query(query); K=self.query(key);
V=self.query(value)`): the learned `self.key` and `self.value` layers
are dead weights, so the output is invariant under arbitrary changes to
the key-projection (and value-projection) weights, for every input — in
particular no input exists on which perturbing only the key-projection
weights changes the attention output. -/
theorem claim_C1 (wq wk wk2 wv wv2 wf : Linear) (numHeads headDim : ℕ)
    (scale : ℚ) (e : ℚ → ℚ) (qn kn : ℕ) (query : Fin qn → List ℚ)
    (key value : Fin kn → List ℚ)
    (mask : Option (Fin qn → Fin kn → Bool)) (i : Fin qn) :
    MHAForward ⟨wq, wk, wv, wf⟩ numHeads headDim scale e query key value
        mask i =
      MHAForward ⟨wq, wk2, wv2, wf⟩ numHeads headDim scale e query key value
        mask i :=
  rfl

/-! ## `torch.topk` and sampling-weight lemmas -/

theorem bestIdx_cons {α : Type} [LinearOrder α] (s : List α) (d : α)
    (c0 i : ℕ) (is : List ℕ) :
    bestIdx s d c0 (i :: is) =
      bestIdx s d (if s.getD c0 d < s.getD i d then i else c0) is :=
  rfl

theorem bestIdx_mem {α : Type} [LinearOrder α] (s : List α) (d : α)
    (cands : List ℕ) :
    ∀ c0 : ℕ, bestIdx s d c0 cands = c0 ∨ bestIdx s d c0 cands ∈ cands := by
  induction cands with
  | nil => intro c0; left; rfl
  | cons i is ih =>
    intro c0
    rw [bestIdx_cons]
    rcases ih (if s.getD c0 d < s.getD i d then i else c0) with h | h
    · rw [h]
      by_cases hlt : s.getD c0 d < s.getD i d
      · rw [if_pos hlt]
        right
        exact List.mem_cons_self i is
      · rw [if_neg hlt]
        left
        rfl
    · right; exact List.mem_cons_of_mem _ h

theorem bestIdx_mem_cons {α : Type} [LinearOrder α] (s : List α) (d : α)
    (c : ℕ) (cs : List ℕ) : bestIdx s d c cs ∈ c :: cs := by
  rcases bestIdx_mem s d cs c with h | h
  · rw [h]; exact List.mem_cons_self c cs
  · exact List.mem_cons_of_mem _ h

/-- `torch.topk` never clamps: the pool holds `min k n` indices,
`n` the vector length, whether or not entries are `-inf`. -/
theorem topkIdx_length {α : Type} [LinearOrder α] (s : List α) (d : α)
    (k : ℕ) :
    ∀ cands : List ℕ, (topkIdx s d k cands).length = min k cands.length := by
  induction k with
  | zero => intro cands; simp [topkIdx]
  | succ k ih =>
    intro cands
    cases cands with
    | nil => simp [topkIdx]
    | cons c cs =>
      have hmem : bestIdx s d c cs ∈ c :: cs := bestIdx_mem_cons s d c cs
      have herase : ((c :: cs).erase (bestIdx s d c cs)).length =
          cs.length := by
        rw [List.length_erase_of_mem hmem]
        simp
      show (bestIdx s d c cs :: topkIdx s d k
        ((c :: cs).erase (bestIdx s d c cs))).length = _
      rw [List.length_cons, ih, herase]
      simp [Nat.succ_min_succ]

theorem topkIdx_subset {α : Type} [LinearOrder α] (s : List α) (d : α)
    (k : ℕ) :
    ∀ (cands : List ℕ) (i : ℕ), i ∈ topkIdx s d k cands → i ∈ cands := by
  induction k with
  | zero => intro cands i h; simp [topkIdx] at h
  | succ k ih =>
    intro cands i h
    cases cands with
    | nil => simp [topkIdx] at h
    | cons c cs =>
      rcases List.mem_cons.mp h with h | h
      · rw [h]; exact bestIdx_mem_cons s d c cs
      · exact List.erase_subset _ _ (ih _ i h)

theorem expW_bot (e : ℚ → ℚ) : expW e ⊥ = 0 :=
  rfl

/-- An entry of the multinomial weight vector is strictly positive only
at an in-range position whose score is not `-inf`: `exp (-inf) = 0`
gives weight exactly zero to excluded score entries. -/
theorem softmaxW_getD_pos (e : ℚ → ℚ) (l : List (WithBot ℚ)) (c : ℕ)
    (h : 0 < (softmaxW e l).getD c 0) :
    c < l.length ∧ l.getD c ⊥ ≠ ⊥ := by
  have hc : c < l.length := by
    by_contra hc
    have hlen : (softmaxW e l).length = l.length := by simp [softmaxW]
    rw [List.getD_eq_getElem?_getD, List.getElem?_eq_none] at h
    · exact lt_irrefl 0 h
    · rw [hlen]; omega
  refine ⟨hc, ?_⟩
  intro hbot
  have hval : (softmaxW e l).getD c 0 =
      expW e (l.getD c ⊥) / (l.map (expW e)).sum := by
    unfold softmaxW
    rw [getD_map _ _ _ ⊥ _ hc]
  rw [hval, hbot, expW_bot, zero_div] at h
  exact lt_irrefl 0 h

/-- C4 counterexample input: expert distribution with a single plausible
token over a 51-token vocabulary (`alpha = 1`), uniform amateur. -/
def c4scores : List (WithBot ℚ) :=
  cdScoresAdaptive (fun _ => 0) ((1 : ℚ) :: List.replicate 50 0)
    (List.replicate 51 ((1 : ℚ)/51)) 1

unseal Rat.mul Rat.add Rat.sub Rat.inv in
/-- C4, counterexample to the claim as stated: at `c4scores` exactly one
entry is non-excluded, yet `torch.topk(·, k=50)` keeps the pool at 50
indices instead of clamping it to 1, and the pool's second member is an
excluded (`-inf`) entry. -/
theorem claim_C4_cex :
    (c4scores.filter (fun v => decide (v ≠ ⊥))).length = 1 ∧
    (topkIdx c4scores ⊥ 50 (List.range c4scores.length)).length = 50 ∧
    c4scores.getD
      ((topkIdx c4scores ⊥ 50 (List.range c4scores.length)).getD 1 0) ⊥
      = ⊥ := by
  set_option maxRecDepth 100000 in
  decide

/-- A pool position of strictly positive multinomial weight maps to an
in-range vocabulary index whose contrastive score is not `-inf`. -/
theorem stepWeight_pos_token (P : CDParams) (S : List ℕ) (c : ℕ)
    (hw : 0 < (stepWeights P S).getD c 0) :
    stepToken P S c < (stepScores P S).length ∧
    (stepScores P S).getD (stepToken P S c) ⊥ ≠ ⊥ := by
  have h1 := softmaxW_getD_pos P.e _ c hw
  rw [List.length_map] at h1
  have hcp : c < (stepPool P S).length := h1.1
  have hval : ((stepPool P S).map
      (fun i => (stepScores P S).getD i ⊥)).getD c ⊥ =
      (stepScores P S).getD ((stepPool P S).getD c 0) ⊥ :=
    getD_map _ _ _ 0 _ hcp
  have hne : (stepScores P S).getD (stepToken P S c) ⊥ ≠ ⊥ := by
    unfold stepToken
    rw [← hval]
    exact h1.2
  refine ⟨?_, hne⟩
  have hmem : stepToken P S c ∈ stepPool P S := getD_mem _ _ _ hcp
  have hrange : stepToken P S c ∈ List.range (stepScores P S).length :=
    topkIdx_subset _ _ _ _ _ hmem
  exact List.mem_range.mp hrange

/-- C4 as amended.  In the truncated-sampling step the pool always holds
`min 50 V` indices — `k = 50` is never clamped down to the count of
non-excluded entries, so excluded entries can enter the candidate pool —
but every pool position drawn with positive multinomial weight maps to
an in-range vocabulary index whose contrastive score is not `-inf`. -/
theorem claim_C4 (P : CDParams) (S : List ℕ) (c : ℕ) :
    (stepPool P S).length = min 50 (stepScores P S).length ∧
    (0 < (stepWeights P S).getD c 0 →
      stepToken P S c < (stepScores P S).length ∧
      (stepScores P S).getD (stepToken P S c) ⊥ ≠ ⊥) := by
  constructor
  · unfold stepPool
    rw [topkIdx_length]
    simp
  · exact stepWeight_pos_token P S c

/-- A concrete decoding environment over a one-token vocabulary, used to
instantiate the loop theorems. -/
def P0 : CDParams where
  expertLogits := fun _ => [0]
  amateurLogits := fun _ => [0]
  e := fun _ => 1
  l := fun _ => 0
  alpha := 1/2

unseal Rat.mul Rat.add Rat.sub Rat.inv in
theorem claim_C4_wit :
    0 < (stepWeights P0 []).getD 0 0 ∧
    ((stepPool P0 []).length = min 50 (stepScores P0 []).length ∧
      (stepToken P0 [] 0 < (stepScores P0 []).length ∧
        (stepScores P0 []).getD (stepToken P0 [] 0) ⊥ ≠ ⊥)) :=
  ⟨by decide, (claim_C4 P0 [] 0).1, (claim_C4 P0 [] 0).2 (by decide)⟩

/-! ## The decoding-loop invariants -/

/-- A run of the adaptive loop only ever appends: the result extends the
starting sequence. -/
theorem genRel_append (P : CDParams) (S : List ℕ) (n : ℕ) (T : List ℕ)
    (h : GenRel P S n T) : ∃ L : List ℕ, T = S ++ L := by
  induction h with
  | done S => exact ⟨[], by simp⟩
  | step S n c T hc htail ih =>
    rcases ih with ⟨L, hL⟩
    exact ⟨stepToken P S c :: L, by simpa using hL⟩

theorem genRel_length (P : CDParams) (S : List ℕ) (n : ℕ) (T : List ℕ)
    (h : GenRel P S n T) : T.length = S.length + n := by
  induction h with
  | done S => rfl
  | step S n c T hc htail ih => simp at ih; omega

theorem genRelNA_length (P : CDParams) (S : List ℕ) (n : ℕ) (T : List ℕ)
    (h : GenRelNA P S n T) : T.length = S.length + n := by
  induction h with
  | done S => rfl
  | step S n c T hc htail ih => simp at ih; omega

/-- C7.  For every prompt of length `L` and `num_tokens = N`, the token
sequence produced by the decoding loop — `generated_tokens`, the prompt
plus the generated tokens — has length exactly `L + N`, in the adaptive
and in the non-adaptive `generate_next_token` alike. -/
theorem claim_C7 (P : CDParams) (S : List ℕ) (N : ℕ) (T T2 : List ℕ) :
    (GenRel P S N T → T.length = S.length + N) ∧
    (GenRelNA P S N T2 → T2.length = S.length + N) :=
  ⟨genRel_length P S N T, genRelNA_length P S N T2⟩

unseal Rat.mul Rat.add Rat.sub Rat.inv in
theorem claim_C7_wit :
    ([5, stepToken P0 [5] 0].length = [5].length + 1) ∧
    ([5, stepTokenNA P0 [5] 0].length = [5].length + 1) :=
  ⟨(claim_C7 P0 [5] 1 [5, stepToken P0 [5] 0] [5, stepTokenNA P0 [5] 0]).1
      (GenRel.step [5] 0 0 _ (by decide) (GenRel.done _)),
    (claim_C7 P0 [5] 1 [5, stepToken P0 [5] 0] [5, stepTokenNA P0 [5] 0]).2
      (GenRelNA.step [5] 0 0 _ (by decide) (GenRelNA.done _))⟩

/-- A non-`-inf` entry of the adaptive score vector lies at an in-range
vocabulary index that satisfies the plausibility mask. -/
theorem stepScores_ne_bot (P : CDParams) (S : List ℕ) (i : ℕ)
    (h : (stepScores P S).getD i ⊥ ≠ ⊥) :
    i < (stepExpertProbs P S).length ∧
    P.alpha * listMax (stepExpertProbs P S) ≤
      (stepExpertProbs P S).getD i 0 := by
  have hi : i < (stepScores P S).length := by
    by_contra hc
    rw [List.getD_eq_getElem?_getD, List.getElem?_eq_none (by omega)] at h
    exact h rfl
  have hie : i < (stepExpertProbs P S).length := by
    have := cdScoresAdaptive_length P.l (stepExpertProbs P S)
      (softmaxQ P.e (P.amateurLogits S)) P.alpha
    unfold stepScores at hi
    rw [this] at hi
    omega
  have hia : i < (softmaxQ P.e (P.amateurLogits S)).length := by
    have := cdScoresAdaptive_length P.l (stepExpertProbs P S)
      (softmaxQ P.e (P.amateurLogits S)) P.alpha
    unfold stepScores at hi
    rw [this] at hi
    omega
  refine ⟨hie, ?_⟩
  by_contra hmask
  have := cdScoresAdaptive_getD P.l (stepExpertProbs P S)
    (softmaxQ P.e (P.amateurLogits S)) P.alpha i hie hia
  unfold stepScores at h
  rw [this, if_neg hmask] at h
  exact h rfl

/-- C3.  In every adaptive-mode run, every generated token (every
position of the output beyond the prompt) satisfies the plausibility
mask of its step: its expert probability, computed from the sequence
generated so far, is at least `alpha * max expert_probs`.  A
masked-out (score `-inf`) position is never selected, because
`exp (-inf) = 0` leaves it zero multinomial weight. -/
theorem claim_C3 (P : CDParams) (S : List ℕ) (n : ℕ) (T : List ℕ)
    (h : GenRel P S n T) (i : ℕ) (hS : S.length ≤ i) (hT : i < T.length) :
    T.getD i 0 < (stepExpertProbs P (T.take i)).length ∧
    P.alpha * listMax (stepExpertProbs P (T.take i)) ≤
      (stepExpertProbs P (T.take i)).getD (T.getD i 0) 0 := by
  induction h with
  | done S =>
    omega
  | step S n c T hc htail ih =>
    rcases Nat.eq_or_lt_of_le hS with heq | hlt
    · subst heq
      rcases genRel_append P _ n T htail with ⟨L, hL⟩
      have hTake : T.take S.length = S := by
        rw [hL, List.append_assoc, List.take_left]
      have hGet : T.getD S.length 0 = stepToken P S c := by
        rw [hL, List.append_assoc, List.getD_eq_getElem?_getD,
          List.getElem?_append_right (le_refl _)]
        simp
      have hpos := stepWeight_pos_token P S c hc
      rw [hTake, hGet]
      exact stepScores_ne_bot P S _ hpos.2
    · have hle : (S ++ [stepToken P S c]).length ≤ i := by
        simp
        omega
      exact ih hle hT

unseal Rat.mul Rat.add Rat.sub Rat.inv in
theorem claim_C3_wit :
    [5, stepToken P0 [5] 0].getD 1 0 <
      (stepExpertProbs P0 ([5, stepToken P0 [5] 0].take 1)).length ∧
    P0.alpha * listMax (stepExpertProbs P0 ([5, stepToken P0 [5] 0].take 1)) ≤
      (stepExpertProbs P0 ([5, stepToken P0 [5] 0].take 1)).getD
        ([5, stepToken P0 [5] 0].getD 1 0) 0 :=
  claim_C3 P0 [5] 1 [5, stepToken P0 [5] 0]
    (GenRel.step [5] 0 0 _ (by decide) (GenRel.done _)) 1
    (by decide) (by decide)

/-- C8.  Causal masking blocks information flow from the future: in
self-attention under the lower-triangular causal mask, the output at
query position `i` is identical for any two input sequences agreeing at
all positions `j ≤ i`, however they differ at positions `j > i`. -/
theorem claim_C8 (W : MHAWeights) (numHeads headDim : ℕ) (scale : ℚ)
    (e : ℚ → ℚ) (n : ℕ) (x y : Fin n → List ℚ) (i : Fin n)
    (hagree : ∀ j : Fin n, j ≤ i → x j = y j) :
    MHAForward W numHeads headDim scale e x x x (some causalMask) i =
      MHAForward W numHeads headDim scale e y y y (some causalMask) i := by
  have hxi : x i = y i := hagree i (le_refl i)
  have hmask : ∀ (h : ℕ) (j : Fin n),
      mhaMasked W headDim scale x x (some causalMask) h i j =
        mhaMasked W headDim scale y y (some causalMask) h i j := by
    intro h j
    simp only [mhaMasked, causalMask]
    by_cases hji : (j : ℕ) ≤ (i : ℕ)
    · rw [if_pos (decide_eq_true hji), if_pos (decide_eq_true hji)]
      unfold mhaScore
      rw [hxi, hagree j hji]
    · rw [if_neg (by simp only [decide_eq_true_eq]; exact hji),
        if_neg (by simp only [decide_eq_true_eq]; exact hji)]
  have hw : ∀ (h : ℕ) (j : Fin n),
      mhaWeight W headDim scale e x x (some causalMask) h i j =
        mhaWeight W headDim scale e y y (some causalMask) h i j := by
    intro h j
    unfold mhaWeight
    rw [hmask h j]
    congr 1
    apply Finset.sum_congr rfl
    intro j' _
    rw [hmask h j']
  have hzero : ∀ (z : Fin n → List ℚ) (h : ℕ) (j : Fin n),
      ¬ (j : ℕ) ≤ (i : ℕ) →
      mhaWeight W headDim scale e z z (some causalMask) h i j = 0 := by
    intro z h j hji
    simp only [mhaWeight, mhaMasked, causalMask]
    rw [if_neg (by simp only [decide_eq_true_eq]; exact hji), expW_bot,
      zero_div]
  have hho : ∀ h : ℕ,
      mhaHeadOut W headDim scale e x x x (some causalMask) h i =
        mhaHeadOut W headDim scale e y y y (some causalMask) h i := by
    intro h
    unfold mhaHeadOut
    apply List.map_congr_left
    intro c _
    apply Finset.sum_congr rfl
    intro j _
    by_cases hji : (j : ℕ) ≤ (i : ℕ)
    · rw [hw h j, hagree j hji]
    · rw [hzero x h j hji, hzero y h j hji, zero_mul, zero_mul]
  unfold MHAForward
  congr 1
  congr 1
  apply List.map_congr_left
  intro h _
  exact hho h

/-- Concrete attention weights for instantiating `claim_C8`. -/
def W0 : MHAWeights :=
  ⟨⟨[[1]], [0]⟩, ⟨[[2]], [0]⟩, ⟨[[3]], [0]⟩, ⟨[[1]], [0]⟩⟩

/-- Two-position inputs agreeing at position 0 and differing at 1. -/
def x8 : Fin 2 → List ℚ := fun j => if j = 0 then [1] else [2]

/-- Variant of `x8` that differs only at position 1. -/
def y8 : Fin 2 → List ℚ := fun j => if j = 0 then [1] else [3]

theorem claim_C8_wit :
    MHAForward W0 1 1 1 (fun _ => 1) x8 x8 x8 (some causalMask) 0 =
      MHAForward W0 1 1 1 (fun _ => 1) y8 y8 y8 (some causalMask) 0 :=
  claim_C8 W0 1 1 1 (fun _ => 1) 2 x8 y8 0 (by
    intro j hj
    have hj0 : j = 0 := Fin.le_zero_iff.mp hj
    rw [hj0]
    rfl)

end MLPrep
